import Mathlib

/-!
Verification of the silence-trimming pipeline in `video_silence.py`.

Times are modelled exactly as rationals (the Python floats carry real
arithmetic here), audio sample amplitudes as reals.  The media object is
abstracted into the loudness function `dB : start → stop → loudness` that
`audio_to_dB` computes on each extracted chunk, so the detector becomes a
pure function of that loudness function and of the media duration.
`np.arange(0, duration, chunk_size)` is modelled by its exact semantics:
`⌈duration / chunk_size⌉₊` values `i * chunk_size`.
-/

namespace VideoSilence

/-- A segment `(start, end)` is well formed when `start ≤ end`; `Valid l`
says every segment of the list is well formed. -/
def Valid (l : List (ℚ × ℚ)) : Prop := ∀ s ∈ l, s.1 ≤ s.2

/-- Adjacent segments do not overlap: each ends no later than the next
one starts. -/
def NoOverlap (l : List (ℚ × ℚ)) : Prop := List.Chain' (fun a b => a.2 ≤ b.1) l

/-- Segments are ordered by start time. -/
def StartSorted (l : List (ℚ × ℚ)) : Prop := List.Chain' (fun a b => a.1 ≤ b.1) l

/-- Interval containment: `covers t s` says segment `s` lies inside `t`. -/
def covers (t s : ℚ × ℚ) : Prop := t.1 ≤ s.1 ∧ s.2 ≤ t.2

/-- Loop body of `combine_segments`: `acc` is the last element of the
`combined_segments` list (the only one the Python loop ever mutates),
the remaining input is walked left to right. -/
def combineAux (max_gap : ℚ) (acc : ℚ × ℚ) : List (ℚ × ℚ) → List (ℚ × ℚ)
  | [] => [acc]
  | s :: rest =>
    if s.1 - acc.2 ≤ max_gap then combineAux max_gap (acc.1, s.2) rest
    else acc :: combineAux max_gap s rest

/-- Embedding of `combine_segments(segments, max_gap)` from
`video_silence.py` lines 88–115. -/
def combine_segments (segments : List (ℚ × ℚ)) (max_gap : ℚ) : List (ℚ × ℚ) :=
  match segments with
  | [] => []
  | s :: rest => combineAux max_gap s rest

/-- Loop body of `group_segments_by_gap`: `prev` is `segments[i-1]`,
`cur` the group under construction (never empty at this point, `prev` is
its last element). -/
def groupAux (long_gap_threshold : ℚ) (prev : ℚ × ℚ) (cur : List (ℚ × ℚ)) :
    List (ℚ × ℚ) → List (List (ℚ × ℚ))
  | [] => [cur]
  | s :: rest =>
    if s.1 - prev.2 > long_gap_threshold then
      cur :: groupAux long_gap_threshold s [s] rest
    else
      groupAux long_gap_threshold s (cur ++ [s]) rest

/-- Embedding of `group_segments_by_gap(segments, long_gap_threshold)`
from `video_silence.py` lines 117–149. -/
def group_segments_by_gap (segments : List (ℚ × ℚ)) (long_gap_threshold : ℚ) :
    List (List (ℚ × ℚ)) :=
  match segments with
  | [] => []
  | s :: rest => groupAux long_gap_threshold s [s] rest

/-- Detector state: the accumulated `segments` list, the optional
`current_start` of an open segment and the `silence_accumulator`. -/
structure DetectState where
  segments : List (ℚ × ℚ)
  current_start : Option ℚ
  silence_accumulator : ℚ

/-- One iteration of the chunk loop of `detect_audio_segments`
(`video_silence.py` lines 64–74), given the chunk's silence
classification. -/
def detectChunk (min_silence_duration chunk_size : ℚ) (is_silent : Bool)
    (st : DetectState) (start : ℚ) : DetectState :=
  if is_silent then
    match st.current_start with
    | some cs =>
        if min_silence_duration ≤ st.silence_accumulator + chunk_size then
          ⟨st.segments ++ [(cs, start)], none, 0⟩
        else
          ⟨st.segments, some cs, st.silence_accumulator + chunk_size⟩
    | none => ⟨st.segments, none, st.silence_accumulator + chunk_size⟩
  else
    ⟨st.segments, some (st.current_start.getD start), 0⟩

/-- The chunk loop of `detect_audio_segments`: each chunk runs from
`start` to `min (start + chunk_size) duration` and is silent when its
loudness is below the threshold. -/
def detectGo (dB : ℚ → ℚ → ℚ) (duration silence_threshold min_silence_duration chunk_size : ℚ) :
    List ℚ → DetectState → DetectState
  | [], st => st
  | start :: rest, st =>
      detectGo dB duration silence_threshold min_silence_duration chunk_size rest
        (detectChunk min_silence_duration chunk_size
          (decide (dB start (min (start + chunk_size) duration) < silence_threshold)) st start)

/-- Exact semantics of `np.arange(0, duration, chunk_size)`: the values
`i * chunk_size` for `i < ⌈duration / chunk_size⌉₊`. -/
def chunkStarts (duration chunk_size : ℚ) : List ℚ :=
  (List.range ⌈duration / chunk_size⌉₊).map (fun i : ℕ => (i : ℚ) * chunk_size)

/-- Embedding of `detect_audio_segments(video, silence_threshold,
min_silence_duration, chunk_size)` from `video_silence.py` lines 35–85.
The media is abstracted into its duration and the chunk loudness
function `dB`. -/
def detect_audio_segments (dB : ℚ → ℚ → ℚ) (duration : ℚ)
    (silence_threshold min_silence_duration chunk_size : ℚ) : List (ℚ × ℚ) :=
  let final := detectGo dB duration silence_threshold min_silence_duration chunk_size
    (chunkStarts duration chunk_size) ⟨[], none, 0⟩
  match final.current_start with
  | some cs => final.segments ++ [(cs, duration)]
  | none => final.segments

/-- Embedding of `detect_audio_segments` together with the behaviour of
`np.arange` on a zero step: `np.arange(0, duration, 0)` raises
`ZeroDivisionError`, every other chunk size just runs the loop over
`chunkStarts`. -/
def detect_audio_segmentsE (dB : ℚ → ℚ → ℚ) (duration : ℚ)
    (silence_threshold min_silence_duration chunk_size : ℚ) :
    Except String (List (ℚ × ℚ)) :=
  if chunk_size = 0 then Except.error "ZeroDivisionError: division by zero"
  else Except.ok (detect_audio_segments dB duration silence_threshold min_silence_duration chunk_size)

/-- Module constant `minimum_silence_duration = 0.3` (line 5). -/
def minimum_silence_duration : ℚ := 0.3

/-- Module constant `minimum_silence_new_clip = 8` (line 6). -/
def minimum_silence_new_clip : ℚ := 8

/-- The module-level pipeline (`video_silence.py` lines 179–186): the
detector output is handed directly to `group_segments_by_gap`;
`combine_segments` is never invoked. -/
def run_grouped_segments (dB : ℚ → ℚ → ℚ) (duration : ℚ) : List (List (ℚ × ℚ)) :=
  group_segments_by_gap
    (detect_audio_segments dB duration (-30) minimum_silence_duration (0.1))
    minimum_silence_new_clip

/-- Loudness function of the counterexample run: chunks starting at
`0.1`, `0.2`, `0.3` are quiet (−40 dB), all others loud (0 dB). -/
def dB_ce : ℚ → ℚ → ℚ := fun s _ => if s = 1/10 ∨ s = 2/10 ∨ s = 3/10 then -40 else 0

/-- Invariant of the detector state while the scan is at position `lo`:
closed segments are well formed, ordered, non-overlapping, they end no
later than the open segment's start (or `lo` when no segment is open),
and the open segment's start lies in `[0, lo]`. -/
def SegInv (lo : ℚ) (st : DetectState) : Prop :=
  List.Chain' (fun a b => a.2 ≤ b.1) st.segments ∧
  (∀ s ∈ st.segments, 0 ≤ s.1 ∧ s.1 ≤ s.2) ∧
  (∀ s ∈ st.segments, s.2 ≤ st.current_start.getD lo) ∧
  (0 ≤ st.current_start.getD lo ∧ st.current_start.getD lo ≤ lo)

/-- Per-channel root mean square,
`np.sqrt(np.mean(np.square(audio_frames), axis=0))`, for the channel
whose samples are `ch`. -/
noncomputable def channel_rms (ch : List ℝ) : ℝ :=
  Real.sqrt ((ch.map (fun x => x ^ 2)).sum / ch.length)

/-- The zero floor `rms[rms == 0] = 1e-10` (line 27) on one channel. -/
noncomputable def floor_rms (r : ℝ) : ℝ := if r = 0 then 1e-10 else r

/-- Per-channel decibel value `20 * np.log10(rms)` (line 30). -/
noncomputable def channel_dB (ch : List ℝ) : ℝ :=
  20 * Real.logb 10 (floor_rms (channel_rms ch))

/-- Embedding of `audio_to_dB` (lines 12–33) on a chunk with at least
one sample: the mean over channels of the per-channel dB values.  The
sample array is given channel-major: one sample list per channel. -/
noncomputable def audio_to_dB (channels : List (List ℝ)) : ℝ :=
  ((channels.map channel_dB).sum) / channels.length

/-- Amplitude scaling of every sample of every channel. -/
def scale_samples (k : ℝ) (channels : List (List ℝ)) : List (List ℝ) :=
  channels.map (List.map (fun x => k * x))

/-- `np.mean` over an axis of length zero yields NaN; NaN is modelled
throughout as `none`. -/
noncomputable def meanF (l : List ℝ) : Option ℝ :=
  if l = [] then none else some (l.sum / l.length)

/-- Per-channel RMS with NaN propagation through `np.sqrt`. -/
noncomputable def channel_rmsF (ch : List ℝ) : Option ℝ :=
  (meanF (ch.map (fun x => x ^ 2))).map Real.sqrt

/-- The floor `rms[rms == 0] = 1e-10`: `NaN == 0` is false in IEEE
arithmetic, so a NaN RMS is not replaced by the floor. -/
noncomputable def floor_rmsF (r : Option ℝ) : Option ℝ := r.map floor_rms

/-- Per-channel dB with NaN propagation through `np.log10`. -/
noncomputable def channel_dBF (ch : List ℝ) : Option ℝ :=
  (floor_rmsF (channel_rmsF ch)).map (fun r => 20 * Real.logb 10 r)

/-- `np.mean` over the channel axis: NaN when there are no channels or
some channel value is NaN. -/
noncomputable def meanOF (l : List (Option ℝ)) : Option ℝ :=
  if l = [] ∨ none ∈ l then none
  else some ((l.map (fun x => x.getD 0)).sum / l.length)

/-- The value `audio_to_dB` computes on a possibly empty sample buffer,
with NaN propagation. -/
noncomputable def audio_to_dBF (channels : List (List ℝ)) : Option ℝ :=
  meanOF (channels.map channel_dBF)

/-- The classification `is_silent = dB < silence_threshold` of line 62
under IEEE semantics: any comparison with NaN is false. -/
def isSilentF (dBv : Option ℝ) (threshold : ℝ) : Prop :=
  match dBv with
  | some x => x < threshold
  | none => False

end VideoSilence

namespace VideoSilence

section GroupLemmas

variable {t : ℚ}

/-- Concatenating the groups produced by the loop restores the current
group followed by the unprocessed input. -/
lemma groupAux_flatten (t : ℚ) :
    ∀ (rest : List (ℚ × ℚ)) (p : ℚ × ℚ) (cur : List (ℚ × ℚ)),
      (groupAux t p cur rest).flatten = cur ++ rest := by
  intro rest
  induction rest with
  | nil => intro p cur; simp [groupAux]
  | cons s rest ih =>
      intro p cur
      by_cases h : s.1 - p.2 > t
      · simp [groupAux, h, ih]
      · simp [groupAux, h, ih]

/-- The group under construction only ever grows at its tail: the first
produced group is `cur` extended by some suffix, and neither that suffix
nor the later groups depend on `cur`. -/
lemma groupAux_shift (t : ℚ) :
    ∀ (rest : List (ℚ × ℚ)) (p : ℚ × ℚ) (cur : List (ℚ × ℚ)),
      groupAux t p cur rest =
        (cur ++ (groupAux t p [] rest).headI) :: (groupAux t p [] rest).tail := by
  intro rest
  induction rest with
  | nil => intro p cur; simp [groupAux]
  | cons s rest ih =>
      intro p cur
      by_cases h : s.1 - p.2 > t
      · simp [groupAux, h]
      · simp only [groupAux, if_neg h]
        rw [ih s (cur ++ [s]), ih s ([] ++ [s])]
        simp

/-- Splitting case of the grouping loop, at top level. -/
lemma group_cons_gt {s1 s2 : ℚ × ℚ} {rest : List (ℚ × ℚ)} (h : s2.1 - s1.2 > t) :
    group_segments_by_gap (s1 :: s2 :: rest) t = [s1] :: group_segments_by_gap (s2 :: rest) t := by
  simp [group_segments_by_gap, groupAux, h]

/-- Appending case of the grouping loop, at top level. -/
lemma group_cons_le {s1 s2 : ℚ × ℚ} {rest : List (ℚ × ℚ)} (h : s2.1 - s1.2 ≤ t) :
    group_segments_by_gap (s1 :: s2 :: rest) t =
      (s1 :: (group_segments_by_gap (s2 :: rest) t).headI) ::
        (group_segments_by_gap (s2 :: rest) t).tail := by
  have h' : ¬ s2.1 - s1.2 > t := not_lt.mpr h
  simp only [group_segments_by_gap, groupAux, if_neg h']
  rw [groupAux_shift t rest s2 ([s1] ++ [s2]), groupAux_shift t rest s2 [s2]]
  simp

end GroupLemmas

/-- Claim C3: for every ordered, non-overlapping segment list and every
threshold, concatenating all groups produced by `group_segments_by_gap`,
in order, yields exactly the input list. -/
theorem claim_C3_group_concat (l : List (ℚ × ℚ)) (t : ℚ)
    (hv : Valid l) (hov : NoOverlap l) :
    (group_segments_by_gap l t).flatten = l := by
  cases l with
  | nil => rfl
  | cons s rest => simp [group_segments_by_gap, groupAux_flatten]

/-- Witness for C3 at a concrete ordered, non-overlapping list. -/
theorem claim_C3_witness :
    (group_segments_by_gap [((0:ℚ),2),(3,4)] 1).flatten = [((0:ℚ),2),(3,4)] :=
  claim_C3_group_concat [((0:ℚ),2),(3,4)] 1
    (by intro s hs; fin_cases hs <;> norm_num)
    (by norm_num [NoOverlap, List.chain'_cons, List.chain'_singleton])

/-- Claim C4: grouping starts the first group at the first segment and
starts a new group exactly when the gap to the immediately preceding
segment exceeds the threshold, otherwise appends to the current group;
scenario B `[(0,5),(20,25)]` at threshold 10 gives two singleton groups
and scenario C `[(0,5),(8,12)]` gives one group with both segments. -/
theorem claim_C4_group_rule :
    (∀ t : ℚ, group_segments_by_gap [] t = []) ∧
    (∀ (s : ℚ × ℚ) (t : ℚ), group_segments_by_gap [s] t = [[s]]) ∧
    (∀ (s1 s2 : ℚ × ℚ) (rest : List (ℚ × ℚ)) (t : ℚ), s2.1 - s1.2 > t →
      group_segments_by_gap (s1 :: s2 :: rest) t =
        [s1] :: group_segments_by_gap (s2 :: rest) t) ∧
    (∀ (s1 s2 : ℚ × ℚ) (rest : List (ℚ × ℚ)) (t : ℚ), s2.1 - s1.2 ≤ t →
      group_segments_by_gap (s1 :: s2 :: rest) t =
        (s1 :: (group_segments_by_gap (s2 :: rest) t).headI) ::
          (group_segments_by_gap (s2 :: rest) t).tail) ∧
    group_segments_by_gap [((0:ℚ),5),(20,25)] 10 = [[((0:ℚ),5)],[(20,25)]] ∧
    group_segments_by_gap [((0:ℚ),5),(8,12)] 10 = [[((0:ℚ),5),(8,12)]] := by
  refine ⟨fun t => rfl, fun s t => rfl, fun s1 s2 rest t h => group_cons_gt h,
    fun s1 s2 rest t h => group_cons_le h, ?_, ?_⟩
  · norm_num [group_segments_by_gap, groupAux]
  · norm_num [group_segments_by_gap, groupAux]

/-- Witness for C4: the split rule and the append rule applied at
concrete inputs. -/
theorem claim_C4_witness :
    group_segments_by_gap [((0:ℚ),0),(7,8)] 3 =
      [((0:ℚ),0)] :: group_segments_by_gap [((7:ℚ),8)] 3 ∧
    group_segments_by_gap [((0:ℚ),0),(2,8)] 3 =
      (((0:ℚ),0) :: (group_segments_by_gap [((2:ℚ),8)] 3).headI) ::
        (group_segments_by_gap [((2:ℚ),8)] 3).tail :=
  ⟨claim_C4_group_rule.2.2.1 (0,0) (7,8) [] 3 (by norm_num),
   claim_C4_group_rule.2.2.2.1 (0,0) (2,8) [] 3 (by norm_num)⟩

section CombineLemmas

variable {g : ℚ}

/-- Replacing the start of the head segment does not affect the
non-overlap chain, which only looks at its end. -/
lemma chain_ov_replace {s : ℚ × ℚ} {x : ℚ} {rest : List (ℚ × ℚ)}
    (h : List.Chain' (fun a b => a.2 ≤ b.1) (s :: rest)) :
    List.Chain' (fun a b => a.2 ≤ b.1) ((x, s.2) :: rest) := by
  cases rest with
  | nil => simp
  | cons r rest' =>
      rw [List.chain'_cons] at h ⊢
      exact ⟨h.1, h.2⟩

/-- In a valid non-overlap chain, the head ends before every later
segment starts. -/
lemma mem_ge_of_chain :
    ∀ (l : List (ℚ × ℚ)) (a : ℚ × ℚ), Valid l →
      List.Chain' (fun a b => a.2 ≤ b.1) (a :: l) → ∀ x ∈ l, a.2 ≤ x.1
  | [], _, _, _ => fun x hx => absurd hx (List.not_mem_nil x)
  | r :: rest, a, hv, hc => by
      rw [List.chain'_cons] at hc
      intro x hx
      rcases List.mem_cons.mp hx with rfl | hx'
      · exact hc.1
      · have hr : r.1 ≤ r.2 := hv r (List.mem_cons_self r rest)
        have htail := mem_ge_of_chain rest r
          (fun u hu => hv u (List.mem_cons_of_mem r hu)) hc.2 x hx'
        exact le_trans (le_trans hc.1 hr) htail

/-- Strict variant of `mem_ge_of_chain` for strictly separated chains. -/
lemma mem_gt_of_chain :
    ∀ (l : List (ℚ × ℚ)) (a : ℚ × ℚ), Valid l →
      List.Chain' (fun a b => a.2 < b.1) (a :: l) → ∀ x ∈ l, a.2 < x.1
  | [], _, _, _ => fun x hx => absurd hx (List.not_mem_nil x)
  | r :: rest, a, hv, hc => by
      rw [List.chain'_cons] at hc
      intro x hx
      rcases List.mem_cons.mp hx with rfl | hx'
      · exact hc.1
      · have hr : r.1 ≤ r.2 := hv r (List.mem_cons_self r rest)
        have htail := mem_gt_of_chain rest r
          (fun u hu => hv u (List.mem_cons_of_mem r hu)) hc.2 x hx'
        exact lt_trans (lt_of_lt_of_le hc.1 hr) htail

/-- A valid non-overlapping list is sorted by start times. -/
lemma chain_ov_sorted :
    ∀ (l : List (ℚ × ℚ)), Valid l → NoOverlap l → StartSorted l
  | [], _, _ => List.chain'_nil
  | [_], _, _ => by simp [StartSorted]
  | a :: b :: rest, hv, hov => by
      rw [NoOverlap, List.chain'_cons] at hov
      rw [StartSorted, List.chain'_cons]
      refine ⟨le_trans (hv a (by simp)) hov.1, ?_⟩
      exact chain_ov_sorted (b :: rest)
        (fun s hs => hv s (List.mem_cons_of_mem a hs)) hov.2

/-- Shape of the merging loop's output: it starts with a segment whose
start is `acc`'s start and whose end extends `acc`'s end, it is valid,
and successive output segments are separated by gaps exceeding
`max_gap`. -/
lemma combineAux_spec :
    ∀ (rest : List (ℚ × ℚ)) (acc : ℚ × ℚ), acc.1 ≤ acc.2 → Valid rest →
      List.Chain' (fun a b => a.2 ≤ b.1) (acc :: rest) →
      ∃ e tl, combineAux g acc rest = (acc.1, e) :: tl ∧ acc.2 ≤ e ∧
        Valid ((acc.1, e) :: tl) ∧
        List.Chain' (fun a b => a.2 ≤ b.1 ∧ g < b.1 - a.2) ((acc.1, e) :: tl) := by
  intro rest
  induction rest with
  | nil =>
      intro acc hacc _ _
      refine ⟨acc.2, [], by simp [combineAux], le_refl _, ?_, by simp⟩
      intro s hs
      rw [List.mem_singleton] at hs
      simpa [hs] using hacc
  | cons s rest ih =>
      intro acc hacc hv hov
      rw [List.chain'_cons] at hov
      have hs : s.1 ≤ s.2 := hv s (List.mem_cons_self s rest)
      have hvrest : Valid rest := fun x hx => hv x (List.mem_cons_of_mem s hx)
      by_cases hgap : s.1 - acc.2 ≤ g
      · have hacc' : (acc.1, s.2).1 ≤ (acc.1, s.2).2 :=
          le_trans hacc (le_trans hov.1 hs)
        have hov' := chain_ov_replace (x := acc.1) hov.2
        obtain ⟨e, tl, heq, hle, hval, hchain⟩ := ih (acc.1, s.2) hacc' hvrest hov'
        refine ⟨e, tl, ?_, le_trans hov.1 (le_trans hs hle), hval, hchain⟩
        simpa [combineAux, hgap] using heq
      · obtain ⟨e, tl, heq, hle, hval, hchain⟩ := ih s hs hvrest hov.2
        refine ⟨acc.2, (s.1, e) :: tl, ?_, le_refl _, ?_, ?_⟩
        · simp [combineAux, hgap, heq]
        · intro x hx
          rcases List.mem_cons.mp hx with rfl | hx'
          · exact hacc
          · exact hval x hx'
        · rw [List.chain'_cons]
          exact ⟨⟨hov.1, not_le.mp hgap⟩, hchain⟩

/-- The merging loop's output depends on the pending start only through
the first output segment's start coordinate. -/
lemma combineAux_shift :
    ∀ (rest : List (ℚ × ℚ)) (e a a' : ℚ),
      ∃ E tl, combineAux g (a, e) rest = (a, E) :: tl ∧
        combineAux g (a', e) rest = (a', E) :: tl := by
  intro rest
  induction rest with
  | nil => intro e a a'; exact ⟨e, [], by simp [combineAux], by simp [combineAux]⟩
  | cons s rest ih =>
      intro e a a'
      by_cases hgap : s.1 - e ≤ g
      · obtain ⟨E, tl, h1, h2⟩ := ih s.2 a a'
        exact ⟨E, tl, by simpa [combineAux, hgap] using h1,
          by simpa [combineAux, hgap] using h2⟩
      · exact ⟨e, combineAux g s rest, by simp [combineAux, hgap],
          by simp [combineAux, hgap]⟩

/-- Merging a list whose successive gaps already exceed `max_gap`
changes nothing. -/
lemma combine_eq_self :
    ∀ (l : List (ℚ × ℚ)), List.Chain' (fun a b => g < b.1 - a.2) l →
      combine_segments l g = l
  | [], _ => rfl
  | [a], _ => by simp [combine_segments, combineAux]
  | a :: b :: rest, h => by
      rw [List.chain'_cons] at h
      have hgap : ¬ b.1 - a.2 ≤ g := not_le.mpr h.1
      have htail := combine_eq_self (b :: rest) h.2
      simp only [combine_segments] at htail ⊢
      simp [combineAux, hgap, htail]

/-- Every remaining input segment is covered by some output segment of
the merging loop. -/
lemma combineAux_mem :
    ∀ (rest : List (ℚ × ℚ)) (acc : ℚ × ℚ), acc.1 ≤ acc.2 → Valid rest →
      List.Chain' (fun a b => a.2 ≤ b.1) (acc :: rest) →
      ∀ x ∈ rest, ∃ u ∈ combineAux g acc rest, covers u x := by
  intro rest
  induction rest with
  | nil => intro acc _ _ _ x hx; exact absurd hx (List.not_mem_nil x)
  | cons s rest ih =>
      intro acc hacc hv hov x hx
      rw [List.chain'_cons] at hov
      have hs : s.1 ≤ s.2 := hv s (List.mem_cons_self s rest)
      have hvrest : Valid rest := fun u hu => hv u (List.mem_cons_of_mem s hu)
      by_cases hgap : s.1 - acc.2 ≤ g
      · have hacc' : (acc.1, s.2).1 ≤ (acc.1, s.2).2 :=
          le_trans hacc (le_trans hov.1 hs)
        have hov' := chain_ov_replace (x := acc.1) hov.2
        rcases List.mem_cons.mp hx with rfl | hx'
        · obtain ⟨e, tl, heq, hle, _, _⟩ :=
            combineAux_spec (g := g) rest (acc.1, x.2) hacc' hvrest hov'
          refine ⟨(acc.1, e), ?_, le_trans hacc hov.1, hle⟩
          simp [combineAux, hgap, heq]
        · obtain ⟨u, hu, hcov⟩ := ih (acc.1, s.2) hacc' hvrest hov' x hx'
          refine ⟨u, ?_, hcov⟩
          simpa [combineAux, hgap] using hu
      · rcases List.mem_cons.mp hx with rfl | hx'
        · obtain ⟨e, tl, heq, hle, _, _⟩ :=
            combineAux_spec (g := g) rest x hs hvrest hov.2
          refine ⟨(x.1, e), ?_, le_refl _, hle⟩
          simp [combineAux, hgap, heq]
        · obtain ⟨u, hu, hcov⟩ := ih s hs hvrest hov.2 x hx'
          refine ⟨u, ?_, hcov⟩
          rw [combineAux]
          simp only [if_neg hgap]
          exact List.mem_cons_of_mem acc hu

/-- In a valid, strictly separated list, at most one segment can cover
any given well-formed segment. -/
lemma covers_unique :
    ∀ (out : List (ℚ × ℚ)), Valid out →
      List.Chain' (fun a b => a.2 < b.1) out →
      ∀ (s : ℚ × ℚ), s.1 ≤ s.2 → ∀ u1 ∈ out, ∀ u2 ∈ out,
        covers u1 s → covers u2 s → u1 = u2
  | [], _, _ => fun s _ u1 h1 => absurd h1 (List.not_mem_nil u1)
  | a :: rest, hv, hc => by
      intro s hs u1 h1 u2 h2 hc1 hc2
      have hvrest : Valid rest := fun u hu => hv u (List.mem_cons_of_mem a hu)
      rcases List.mem_cons.mp h1 with rfl | h1' <;>
        rcases List.mem_cons.mp h2 with rfl | h2'
      · rfl
      · exfalso
        have hlt : u1.2 < u2.1 := mem_gt_of_chain rest u1 hvrest hc u2 h2'
        have h1' : s.2 ≤ u1.2 := hc1.2
        have h2'' : u2.1 ≤ s.1 := hc2.1
        linarith
      · exfalso
        have hlt : u2.2 < u1.1 := mem_gt_of_chain rest u2 hvrest hc u1 h1'
        have h1'' : u1.1 ≤ s.1 := hc1.1
        have h2'' : s.2 ≤ u2.2 := hc2.2
        linarith
      · exact covers_unique rest hvrest hc.tail s hs u1 h1' u2 h2' hc1 hc2

/-- Two input segments that are adjacent with a gap of at most `max_gap`
end up covered by one common output segment. -/
lemma combine_covers_adj_of_le :
    ∀ (pre : List (ℚ × ℚ)) (a b : ℚ × ℚ) (post : List (ℚ × ℚ)),
      Valid (pre ++ a :: b :: post) →
      List.Chain' (fun x y => x.2 ≤ y.1) (pre ++ a :: b :: post) →
      b.1 - a.2 ≤ g →
      ∃ u ∈ combine_segments (pre ++ a :: b :: post) g, covers u a ∧ covers u b := by
  intro pre
  induction pre with
  | nil =>
      intro a b post hv hov hgap
      simp only [List.nil_append] at hv hov ⊢
      rw [List.chain'_cons] at hov
      have ha : a.1 ≤ a.2 := hv a (by simp)
      have hb : b.1 ≤ b.2 := hv b (by simp)
      have hvpost : Valid post := fun u hu => hv u (by simp [hu])
      have hacc' : (a.1, b.2).1 ≤ (a.1, b.2).2 :=
        le_trans ha (le_trans hov.1 hb)
      have hov' := chain_ov_replace (x := a.1) hov.2
      obtain ⟨e, tl, heq, hle, _, _⟩ :=
        combineAux_spec (g := g) post (a.1, b.2) hacc' hvpost hov'
      refine ⟨(a.1, e), ?_, ⟨le_refl _, le_trans hov.1 (le_trans hb hle)⟩,
        ⟨le_trans ha hov.1, hle⟩⟩
      simp [combine_segments, combineAux, hgap, heq]
  | cons p pre' ih =>
      intro a b post hv hov hgap
      obtain ⟨s2, rest', hl'⟩ : ∃ s2 rest', pre' ++ a :: b :: post = s2 :: rest' := by
        cases pre' with
        | nil => exact ⟨a, b :: post, rfl⟩
        | cons q qs => exact ⟨q, qs ++ a :: b :: post, rfl⟩
      rw [List.cons_append] at hv hov ⊢
      have hvl' : Valid (pre' ++ a :: b :: post) := fun u hu =>
        hv u (List.mem_cons_of_mem p hu)
      have hovl' : List.Chain' (fun x y => x.2 ≤ y.1) (pre' ++ a :: b :: post) := hov.tail
      obtain ⟨u', hu', hca, hcb⟩ := ih a b post hvl' hovl' hgap
      have hp : p.1 ≤ p.2 := hv p (List.mem_cons_self _ _)
      have hps2 : p.2 ≤ s2.1 := by
        rw [hl'] at hov
        exact (List.chain'_cons.mp hov).1
      rw [hl'] at hu' ⊢
      by_cases hgp : s2.1 - p.2 ≤ g
      · obtain ⟨E, tl, h1, h2⟩ := combineAux_shift (g := g) rest' s2.2 p.1 s2.1
        have h2' : combineAux g s2 rest' = (s2.1, E) :: tl := by simpa using h2
        have hout : combine_segments (p :: s2 :: rest') g = (p.1, E) :: tl := by
          simp only [combine_segments, combineAux, if_pos hgp]
          exact h1
        have hout' : combine_segments (s2 :: rest') g = (s2.1, E) :: tl := by
          simp only [combine_segments]
          exact h2'
        rw [hout'] at hu'
        rw [hout]
        rcases List.mem_cons.mp hu' with heq' | hu'tl
        · rw [heq'] at hca hcb
          exact ⟨(p.1, E), List.mem_cons_self _ _,
            ⟨le_trans hp (le_trans hps2 hca.1), hca.2⟩,
            ⟨le_trans hp (le_trans hps2 hcb.1), hcb.2⟩⟩
        · exact ⟨u', List.mem_cons_of_mem _ hu'tl, hca, hcb⟩
      · have hout : combine_segments (p :: s2 :: rest') g =
            p :: combine_segments (s2 :: rest') g := by
          simp only [combine_segments, combineAux, if_neg hgp]
        rw [hout]
        exact ⟨u', List.mem_cons_of_mem _ hu', hca, hcb⟩

/-- Two input segments that are adjacent with a gap exceeding a
nonnegative `max_gap` are never covered by one common output segment. -/
lemma combine_not_covers_adj_of_gt (hg : 0 ≤ g) :
    ∀ (pre : List (ℚ × ℚ)) (a b : ℚ × ℚ) (post : List (ℚ × ℚ)),
      Valid (pre ++ a :: b :: post) →
      List.Chain' (fun x y => x.2 ≤ y.1) (pre ++ a :: b :: post) →
      g < b.1 - a.2 →
      ∀ u ∈ combine_segments (pre ++ a :: b :: post) g, ¬ (covers u a ∧ covers u b) := by
  intro pre
  induction pre with
  | nil =>
      intro a b post hv hov hgap u hu hcc
      simp only [List.nil_append] at hv hov hu
      rw [List.chain'_cons] at hov
      have ha : a.1 ≤ a.2 := hv a (by simp)
      have hb : b.1 ≤ b.2 := hv b (by simp)
      have hvpost : Valid post := fun x hx => hv x (by simp [hx])
      have hab : a.2 < b.1 := by linarith
      have hgap' : ¬ b.1 - a.2 ≤ g := not_le.mpr hgap
      rw [show combine_segments (a :: b :: post) g = a :: combineAux g b post by
        simp only [combine_segments, combineAux, if_neg hgap']] at hu
      rcases List.mem_cons.mp hu with rfl | hu'
      · have : b.2 ≤ u.2 := by linarith [hcc.2.2]
        linarith [hcc.2.2]
      · obtain ⟨e, tl, heq, hle, hval, hchain⟩ :=
          combineAux_spec (g := g) post b hb hvpost hov.2
        rw [heq] at hu'
        have hb1u : b.1 ≤ u.1 := by
          rcases List.mem_cons.mp hu' with rfl | hu''
          · exact le_refl _
          · have hovout : List.Chain' (fun x y => x.2 ≤ y.1) ((b.1, e) :: tl) :=
              hchain.imp (fun x y hxy => hxy.1)
            have hvtl : Valid tl := fun x hx => hval x (List.mem_cons_of_mem _ hx)
            have : e ≤ u.1 := mem_ge_of_chain tl (b.1, e) hvtl hovout u hu''
            have hbe : b.1 ≤ e := hval (b.1, e) (List.mem_cons_self _ _)
            linarith
        linarith [hcc.1.1]
  | cons p pre' ih =>
      intro a b post hv hov hgap u hu hcc
      obtain ⟨s2, rest', hl'⟩ : ∃ s2 rest', pre' ++ a :: b :: post = s2 :: rest' := by
        cases pre' with
        | nil => exact ⟨a, b :: post, rfl⟩
        | cons q qs => exact ⟨q, qs ++ a :: b :: post, rfl⟩
      rw [List.cons_append] at hv hov hu
      have hvl' : Valid (pre' ++ a :: b :: post) := fun x hx =>
        hv x (List.mem_cons_of_mem p hx)
      have hovl' : List.Chain' (fun x y => x.2 ≤ y.1) (pre' ++ a :: b :: post) := hov.tail
      have hp : p.1 ≤ p.2 := hv p (List.mem_cons_self _ _)
      have hps2 : p.2 ≤ s2.1 := by
        rw [hl'] at hov
        exact (List.chain'_cons.mp hov).1
      have hamem : a ∈ pre' ++ a :: b :: post := by simp
      have hbmem : b ∈ pre' ++ a :: b :: post := by simp
      have hpa : p.2 ≤ a.1 :=
        mem_ge_of_chain (pre' ++ a :: b :: post) p hvl' hov a hamem
      have hpb : p.2 ≤ b.1 :=
        mem_ge_of_chain (pre' ++ a :: b :: post) p hvl' hov b hbmem
      have ha : a.1 ≤ a.2 := hvl' a hamem
      have hb : b.1 ≤ b.2 := hvl' b hbmem
      have hvl'' : Valid (s2 :: rest') := hl' ▸ hvl'
      have hovl'' : List.Chain' (fun x y => x.2 ≤ y.1) (s2 :: rest') := hl' ▸ hovl'
      have hvrest' : Valid rest' := fun x hx => hvl'' x (List.mem_cons_of_mem s2 hx)
      have hs2 : s2.1 ≤ s2.2 := hvl'' s2 (List.mem_cons_self _ _)
      have hs2a : s2.1 ≤ a.1 := by
        have hmem : a ∈ s2 :: rest' := hl' ▸ hamem
        rcases List.mem_cons.mp hmem with heq2 | hmem'
        · rw [heq2]
        · exact le_trans hs2 (mem_ge_of_chain rest' s2 hvrest' hovl'' a hmem')
      have hs2b : s2.1 ≤ b.1 := by
        have hmem : b ∈ s2 :: rest' := hl' ▸ hbmem
        rcases List.mem_cons.mp hmem with heq2 | hmem'
        · rw [heq2]
        · exact le_trans hs2 (mem_ge_of_chain rest' s2 hvrest' hovl'' b hmem')
      rw [hl'] at hu
      by_cases hgp : s2.1 - p.2 ≤ g
      · obtain ⟨E, tl, h1, h2⟩ := combineAux_shift (g := g) rest' s2.2 p.1 s2.1
        have h2' : combineAux g s2 rest' = (s2.1, E) :: tl := by simpa using h2
        have hout : combine_segments (p :: s2 :: rest') g = (p.1, E) :: tl := by
          simp only [combine_segments, combineAux, if_pos hgp]
          exact h1
        have hout' : combine_segments (s2 :: rest') g = (s2.1, E) :: tl := by
          simp only [combine_segments]
          exact h2'
        rw [hout] at hu
        rcases List.mem_cons.mp hu with rfl | hu'
        · refine ih a b post hvl' hovl' hgap (s2.1, E) ?_ ?_
          · rw [hl', hout']
            exact List.mem_cons_self _ _
          · exact ⟨⟨hs2a, hcc.1.2⟩, ⟨hs2b, hcc.2.2⟩⟩
        · refine ih a b post hvl' hovl' hgap u ?_ hcc
          rw [hl', hout']
          exact List.mem_cons_of_mem _ hu'
      · have hout : combine_segments (p :: s2 :: rest') g =
            p :: combine_segments (s2 :: rest') g := by
          simp only [combine_segments, combineAux, if_neg hgp]
        rw [hout] at hu
        rcases List.mem_cons.mp hu with rfl | hu'
        · have h1 : b.2 ≤ u.2 := hcc.2.2
          linarith [hcc.2.2, hpa, hgap, hg, ha, hb]
        · refine ih a b post hvl' hovl' hgap u ?_ hcc
          rw [hl']
          exact hu'

end CombineLemmas

/-- Claim C2 (amended to nonnegative `max_gap`): for every ordered,
non-overlapping input and every `max_gap ≥ 0`, the merged output is
sorted and non-overlapping, every input segment is covered by exactly
one output segment, and two adjacent input segments are covered by a
common output segment exactly when the gap between them is at most
`max_gap`. -/
theorem claim_C2_merge_spec (l : List (ℚ × ℚ)) (g : ℚ) (hg : 0 ≤ g)
    (hv : Valid l) (hov : NoOverlap l) :
    (StartSorted (combine_segments l g) ∧ NoOverlap (combine_segments l g)) ∧
    (∀ s ∈ l, ∃! u, u ∈ combine_segments l g ∧ covers u s) ∧
    (∀ (pre : List (ℚ × ℚ)) (a b : ℚ × ℚ) (post : List (ℚ × ℚ)),
      l = pre ++ a :: b :: post →
      ((∃ u ∈ combine_segments l g, covers u a ∧ covers u b) ↔ b.1 - a.2 ≤ g)) := by
  refine ⟨?_, ?_, ?_⟩
  · cases l with
    | nil => exact ⟨List.chain'_nil, List.chain'_nil⟩
    | cons s0 rest =>
        have hs0 : s0.1 ≤ s0.2 := hv s0 (List.mem_cons_self _ _)
        have hvrest : Valid rest := fun x hx => hv x (List.mem_cons_of_mem s0 hx)
        obtain ⟨e, tl, heq, hle, hval, hchain⟩ :=
          combineAux_spec (g := g) rest s0 hs0 hvrest hov
        have hcomb : combine_segments (s0 :: rest) g = (s0.1, e) :: tl := heq
        have hovout : NoOverlap ((s0.1, e) :: tl) := hchain.imp (fun x y h => h.1)
        rw [hcomb]
        exact ⟨chain_ov_sorted _ hval hovout, hovout⟩
  · intro s hs
    cases l with
    | nil => exact absurd hs (List.not_mem_nil s)
    | cons s0 rest =>
        have hs0 : s0.1 ≤ s0.2 := hv s0 (List.mem_cons_self _ _)
        have hvrest : Valid rest := fun x hx => hv x (List.mem_cons_of_mem s0 hx)
        obtain ⟨e, tl, heq, hle, hval, hchain⟩ :=
          combineAux_spec (g := g) rest s0 hs0 hvrest hov
        have hcomb : combine_segments (s0 :: rest) g = (s0.1, e) :: tl := heq
        have hsep : List.Chain' (fun a b => a.2 < b.1) ((s0.1, e) :: tl) :=
          hchain.imp (fun x y h => by linarith [h.1, h.2])
        have hss : s.1 ≤ s.2 := hv s hs
        have hex : ∃ u ∈ (s0.1, e) :: tl, covers u s := by
          rcases List.mem_cons.mp hs with rfl | hs'
          · exact ⟨(s.1, e), List.mem_cons_self _ _, le_refl _, hle⟩
          · have hm := combineAux_mem (g := g) rest s0 hs0 hvrest hov s hs'
            rw [heq] at hm
            exact hm
        obtain ⟨u, hu, hcov⟩ := hex
        refine ⟨u, ⟨by rw [hcomb]; exact hu, hcov⟩, ?_⟩
        rintro y ⟨hy, hycov⟩
        rw [hcomb] at hy
        exact covers_unique _ hval hsep s hss y hy u hu hycov hcov
  · intro pre a b post hdecomp
    subst hdecomp
    constructor
    · rintro ⟨u, hu, hcc⟩
      by_contra hgt
      exact combine_not_covers_adj_of_gt hg pre a b post hv hov (not_le.mp hgt) u hu hcc
    · intro hgap
      exact combine_covers_adj_of_le pre a b post hv hov hgap

/-- Counterexample refuting C2 as stated, which quantifies over every
`max_gap`: with `max_gap = -1`, for the valid, ordered, non-overlapping
input `[(0,2),(2,2)]` the two adjacent input segments share the covering
output segment `(0,2)` even though their gap `0` exceeds `max_gap`, so
adjacent segments do not land in a common output segment exactly when
their gap is at most `max_gap`. -/
theorem claim_C2_counterexample :
    Valid [((0:ℚ),2),(2,2)] ∧ NoOverlap [((0:ℚ),2),(2,2)] ∧
    ¬ ((∃ u ∈ combine_segments [((0:ℚ),2),(2,2)] (-1),
          covers u (0,2) ∧ covers u (2,2)) ↔ ((2:ℚ) - 2 ≤ -1)) := by
  have hcomb : combine_segments [((0:ℚ),2),(2,2)] (-1) = [((0:ℚ),2),(2,2)] := by
    norm_num [combine_segments, combineAux]
  refine ⟨?_, ?_, ?_⟩
  · intro s hs; fin_cases hs <;> norm_num
  · simp only [NoOverlap]
    norm_num [List.chain'_cons, List.chain'_singleton]
  · intro h
    have h2 : ((2:ℚ) - 2 ≤ -1) := by
      refine h.mp ⟨((0:ℚ),2), ?_, ⟨le_refl _, le_refl _⟩, ⟨by norm_num, le_refl _⟩⟩
      rw [hcomb]
      exact List.mem_cons_self _ _
    norm_num at h2

/-- Witness for the amended C2, at scenario A's input with the
pipeline's merge gap. -/
theorem claim_C2_witness :
    StartSorted (combine_segments [((0:ℚ),2),(23/10,5)] (1/2)) ∧
    NoOverlap (combine_segments [((0:ℚ),2),(23/10,5)] (1/2)) :=
  (claim_C2_merge_spec [((0:ℚ),2),(23/10,5)] (1/2) (by norm_num)
    (by intro s hs; fin_cases hs <;> norm_num)
    (by simp only [NoOverlap]
        norm_num [List.chain'_cons, List.chain'_singleton])).1

/-- Claim C7: merging is idempotent on ordered non-overlapping input,
and merging the empty list yields the empty list. -/
theorem claim_C7_merge_idempotent :
    (∀ g : ℚ, combine_segments [] g = []) ∧
    (∀ (S : List (ℚ × ℚ)) (g : ℚ), Valid S → NoOverlap S →
      combine_segments (combine_segments S g) g = combine_segments S g) := by
  refine ⟨fun g => rfl, fun S g hv hov => ?_⟩
  cases S with
  | nil => rfl
  | cons s0 rest =>
      have hs0 : s0.1 ≤ s0.2 := hv s0 (List.mem_cons_self _ _)
      have hvrest : Valid rest := fun x hx => hv x (List.mem_cons_of_mem s0 hx)
      obtain ⟨e, tl, heq, _, _, hchain⟩ :=
        combineAux_spec (g := g) rest s0 hs0 hvrest hov
      have hcomb : combine_segments (s0 :: rest) g = (s0.1, e) :: tl := heq
      rw [hcomb]
      exact combine_eq_self _ (hchain.imp (fun x y h => h.2))

/-- Witness for C7 at a concrete ordered non-overlapping list. -/
theorem claim_C7_witness :
    combine_segments (combine_segments [((0:ℚ),1),(2,3)] 5) 5 =
      combine_segments [((0:ℚ),1),(2,3)] 5 :=
  claim_C7_merge_idempotent.2 [((0:ℚ),1),(2,3)] 5
    (by intro s hs; fin_cases hs <;> norm_num)
    (by simp only [NoOverlap]
        norm_num [List.chain'_cons, List.chain'_singleton])

section DetectorLemmas

variable {dB : ℚ → ℚ → ℚ} {duration silence_threshold min_silence_duration chunk_size : ℚ}

/-- A non-silent chunk resets the silence accumulator and opens a
segment at the chunk start when none is open. -/
lemma detectChunk_not_silent (m c : ℚ) (st : DetectState) (start : ℚ) :
    detectChunk m c false st start =
      ⟨st.segments, some (st.current_start.getD start), 0⟩ := rfl

/-- A silent chunk while no segment is open only grows the accumulator. -/
lemma detectChunk_silent_none (m c : ℚ) (st : DetectState) (start : ℚ)
    (h : st.current_start = none) :
    detectChunk m c true st start =
      ⟨st.segments, none, st.silence_accumulator + c⟩ := by
  simp [detectChunk, h]

/-- Scanning silent chunks from an idle state never emits a segment. -/
lemma detectGo_silent (h : ∀ s e, dB s e < silence_threshold) :
    ∀ (starts : List ℚ) (st : DetectState), st.current_start = none →
      (detectGo dB duration silence_threshold min_silence_duration chunk_size
          starts st).segments = st.segments ∧
      (detectGo dB duration silence_threshold min_silence_duration chunk_size
          starts st).current_start = none := by
  intro starts
  induction starts with
  | nil => intro st hst; exact ⟨rfl, hst⟩
  | cons s rest ih =>
      intro st hst
      have hd : decide (dB s (min (s + chunk_size) duration) < silence_threshold) = true :=
        decide_eq_true (h _ _)
      have hih := ih ⟨st.segments, none, st.silence_accumulator + chunk_size⟩ rfl
      simp only [detectGo, hd, detectChunk_silent_none min_silence_duration chunk_size st s hst]
      exact hih

/-- Scanning non-silent chunks keeps the open segment and the emitted
segments untouched. -/
lemma detectGo_not_silent (h : ∀ s e, ¬ (dB s e < silence_threshold)) :
    ∀ (starts : List ℚ) (segs : List (ℚ × ℚ)) (x acc : ℚ),
      (detectGo dB duration silence_threshold min_silence_duration chunk_size
          starts ⟨segs, some x, acc⟩).segments = segs ∧
      (detectGo dB duration silence_threshold min_silence_duration chunk_size
          starts ⟨segs, some x, acc⟩).current_start = some x := by
  intro starts
  induction starts with
  | nil => intro segs x acc; exact ⟨rfl, rfl⟩
  | cons s rest ih =>
      intro segs x acc
      have hd : decide (dB s (min (s + chunk_size) duration) < silence_threshold) = false :=
        decide_eq_false (h _ _)
      have hstep : detectChunk min_silence_duration chunk_size false ⟨segs, some x, acc⟩ s =
          ⟨segs, some x, 0⟩ := by
        rw [detectChunk_not_silent]
        simp
      simp only [detectGo, hd, hstep]
      exact ih segs x 0

end DetectorLemmas

/-- Claim C5: a zero-duration media yields no segments, an all-silent
media yields no segments, and an all-non-silent media yields one
segment spanning the whole duration. -/
theorem claim_C5_detector_edges :
    (∀ (dB : ℚ → ℚ → ℚ) (th m c : ℚ), detect_audio_segments dB 0 th m c = []) ∧
    (∀ (dB : ℚ → ℚ → ℚ) (d th m c : ℚ), (∀ s e, dB s e < th) →
      detect_audio_segments dB d th m c = []) ∧
    (∀ (dB : ℚ → ℚ → ℚ) (d th m c : ℚ), (∀ s e, ¬ (dB s e < th)) →
      0 < d → 0 < c → detect_audio_segments dB d th m c = [(0, d)]) := by
  refine ⟨?_, ?_, ?_⟩
  · intro dB th m c
    simp [detect_audio_segments, chunkStarts, detectGo]
  · intro dB d th m c h
    have hgo := @detectGo_silent dB d th m c h (chunkStarts d c) ⟨[], none, 0⟩ rfl
    simp [detect_audio_segments, hgo.1, hgo.2]
  · intro dB d th m c h hd hc
    have hn : ⌈d / c⌉₊ ≠ 0 := Nat.pos_iff_ne_zero.mp (Nat.ceil_pos.mpr (div_pos hd hc))
    obtain ⟨k, hk⟩ := Nat.exists_eq_succ_of_ne_zero hn
    obtain ⟨rest, hrest⟩ : ∃ rest, chunkStarts d c = 0 :: rest := by
      refine ⟨((List.range k).map Nat.succ).map (fun i : ℕ => (i : ℚ) * c), ?_⟩
      rw [chunkStarts, hk, List.range_succ_eq_map, List.map_cons]
      norm_num
    have hd0 : decide (dB 0 (min (0 + c) d) < th) = false := decide_eq_false (h _ _)
    have hstep : detectChunk m c false ⟨[], none, 0⟩ 0 = ⟨[], some 0, 0⟩ := by
      rw [detectChunk_not_silent]
      rfl
    have hgo := @detectGo_not_silent dB d th m c h rest [] 0 0
    simp only [detect_audio_segments, hrest, detectGo, hd0, hstep]
    simp [hgo.1, hgo.2]

/-- Witness for C5: an all-silent and an all-non-silent run at concrete
parameters. -/
theorem claim_C5_witness :
    detect_audio_segments (fun _ _ => -40) 5 (-30) (3/10) (1/10) = [] ∧
    detect_audio_segments (fun _ _ => 0) 1 (-30) (3/10) (1/2) = [(0, 1)] :=
  ⟨claim_C5_detector_edges.2.1 _ 5 (-30) (3/10) (1/10) (fun _ _ => by norm_num),
   claim_C5_detector_edges.2.2 _ 1 (-30) (3/10) (1/2) (fun _ _ => by norm_num)
     (by norm_num) (by norm_num)⟩

section InvariantLemmas

variable {dB : ℚ → ℚ → ℚ} {duration silence_threshold min_silence_duration chunk_size : ℚ}

/-- Appending a segment that starts after every existing segment ends
preserves the non-overlap chain. -/
lemma chain_ov_append_single :
    ∀ (xs : List (ℚ × ℚ)) (y : ℚ × ℚ),
      List.Chain' (fun a b => a.2 ≤ b.1) xs → (∀ x ∈ xs, x.2 ≤ y.1) →
      List.Chain' (fun a b => a.2 ≤ b.1) (xs ++ [y])
  | [], y, _, _ => by simp
  | [x], y, _, hall => by
      rw [List.cons_append, List.nil_append, List.chain'_cons]
      exact ⟨hall x (List.mem_cons_self _ _), by simp⟩
  | x1 :: x2 :: xs, y, hc, hall => by
      rw [List.cons_append, List.cons_append, List.chain'_cons]
      rw [List.chain'_cons] at hc
      refine ⟨hc.1, ?_⟩
      have hrec := chain_ov_append_single (x2 :: xs) y hc.2
        (fun x hx => hall x (List.mem_cons_of_mem _ hx))
      rw [List.cons_append] at hrec
      exact hrec

/-- The invariant bound can be weakened upward. -/
lemma SegInv_mono {lo lo' : ℚ} (h : lo ≤ lo') (st : DetectState)
    (hinv : SegInv lo st) : SegInv lo' st := by
  obtain ⟨hchain, hwf, hend, hb0, hb1⟩ := hinv
  cases hcs : st.current_start with
  | none =>
      simp only [hcs, Option.getD_none] at hend hb0 hb1
      refine ⟨hchain, hwf, ?_, ?_, ?_⟩ <;> simp only [hcs, Option.getD_none]
      · exact fun s hs => le_trans (hend s hs) h
      · linarith
      · exact le_refl _
  | some cs =>
      simp only [hcs, Option.getD_some] at hend hb0 hb1
      refine ⟨hchain, hwf, ?_, ?_, ?_⟩ <;> simp only [hcs, Option.getD_some]
      · exact hend
      · exact hb0
      · exact le_trans hb1 h

/-- The invariant's bound is nonnegative. -/
lemma SegInv_nonneg {lo : ℚ} {st : DetectState} (hinv : SegInv lo st) : 0 ≤ lo :=
  le_trans hinv.2.2.2.1 hinv.2.2.2.2

/-- Both branches of the silent case with an open segment, as one
equation. -/
lemma detectChunk_silent_some (m c : ℚ) (segs : List (ℚ × ℚ)) (cs acc start : ℚ) :
    detectChunk m c true ⟨segs, some cs, acc⟩ start =
      if m ≤ acc + c then ⟨segs ++ [(cs, start)], none, 0⟩
      else ⟨segs, some cs, acc + c⟩ := rfl

/-- One chunk step preserves the invariant at the chunk's start. -/
lemma detectChunk_inv (m c : ℚ) (b : Bool) (st : DetectState) (start : ℚ)
    (h0 : 0 ≤ start) (hinv : SegInv start st) :
    SegInv start (detectChunk m c b st start) := by
  obtain ⟨segs, cso, acc⟩ := st
  obtain ⟨hchain, hwf, hend, hb0, hb1⟩ := hinv
  cases b with
  | false =>
      rw [detectChunk_not_silent]
      cases cso with
      | none =>
          simp only [Option.getD_none] at hend hb0 hb1
          refine ⟨hchain, hwf, ?_, ?_, ?_⟩ <;> simp only [Option.getD_some]
          · exact hend
          · exact h0
          · exact le_refl _
      | some cs =>
          simp only [Option.getD_some] at hend hb0 hb1
          refine ⟨hchain, hwf, ?_, ?_, ?_⟩ <;> simp only [Option.getD_some]
          · exact hend
          · exact hb0
          · exact hb1
  | true =>
      cases cso with
      | none =>
          rw [detectChunk_silent_none m c _ _ rfl]
          exact ⟨hchain, hwf, hend, hb0, hb1⟩
      | some cs =>
          rw [detectChunk_silent_some]
          simp only [Option.getD_some] at hend hb0 hb1
          by_cases hm : m ≤ acc + c
          · rw [if_pos hm]
            refine ⟨?_, ?_, ?_, ?_, ?_⟩
            · exact chain_ov_append_single segs (cs, start) hchain hend
            · intro s hs
              rcases List.mem_append.mp hs with hs' | hs'
              · exact hwf s hs'
              · rw [List.mem_singleton] at hs'
                rw [hs']
                exact ⟨hb0, hb1⟩
            · intro s hs
              simp only [Option.getD_none]
              rcases List.mem_append.mp hs with hs' | hs'
              · exact le_trans (hend s hs') hb1
              · rw [List.mem_singleton] at hs'
                rw [hs']
            · simp only [Option.getD_none]
              exact h0
            · simp only [Option.getD_none]
              exact le_refl _
          · rw [if_neg hm]
            refine ⟨hchain, hwf, ?_, ?_, ?_⟩ <;> simp only [Option.getD_some]
            · exact hend
            · exact hb0
            · exact hb1

/-- Running the chunk loop from an invariant state lands in an invariant
state whose bound is the initial bound or one of the visited chunk
starts. -/
lemma detectGo_inv :
    ∀ (starts : List ℚ) (st : DetectState) (lo : ℚ),
      SegInv lo st → (∀ s ∈ starts, lo ≤ s) → List.Pairwise (· ≤ ·) starts →
      ∃ hi, lo ≤ hi ∧ (hi = lo ∨ hi ∈ starts) ∧
        SegInv hi (detectGo dB duration silence_threshold min_silence_duration chunk_size
          starts st) := by
  intro starts
  induction starts with
  | nil => intro st lo hinv _ _; exact ⟨lo, le_refl _, Or.inl rfl, hinv⟩
  | cons s rest ih =>
      intro st lo hinv hlo hpw
      have hls : lo ≤ s := hlo s (List.mem_cons_self _ _)
      have h0s : 0 ≤ s := le_trans (SegInv_nonneg hinv) hls
      have hinv' : SegInv s st := SegInv_mono hls st hinv
      have hstep := detectChunk_inv min_silence_duration chunk_size
        (decide (dB s (min (s + chunk_size) duration) < silence_threshold)) st s h0s hinv'
      rw [List.pairwise_cons] at hpw
      obtain ⟨hi, hsh, hmem, hinvf⟩ := ih
        (detectChunk min_silence_duration chunk_size
          (decide (dB s (min (s + chunk_size) duration) < silence_threshold)) st s)
        s hstep hpw.1 hpw.2
      refine ⟨hi, le_trans hls hsh, ?_, ?_⟩
      · rcases hmem with rfl | hmem'
        · exact Or.inr (List.mem_cons_self _ _)
        · exact Or.inr (List.mem_cons_of_mem _ hmem')
      · simp only [detectGo]
        exact hinvf

end InvariantLemmas

/-- Claim C6: for every loudness function, duration and threshold, and
every positive minimum silence duration and chunk size, the detector
output is ordered by start time and non-overlapping, and every segment
satisfies `0 ≤ start ≤ end ≤ duration`. -/
theorem claim_C6_detector_invariants (dB : ℚ → ℚ → ℚ) (d th m c : ℚ)
    (hm : 0 < m) (hc : 0 < c) :
    StartSorted (detect_audio_segments dB d th m c) ∧
    NoOverlap (detect_audio_segments dB d th m c) ∧
    ∀ s ∈ detect_audio_segments dB d th m c, 0 ≤ s.1 ∧ s.1 ≤ s.2 ∧ s.2 ≤ d := by
  rcases lt_or_le d 0 with hd | hd
  · have hz : ⌈d / c⌉₊ = 0 :=
      Nat.ceil_eq_zero.mpr (le_of_lt (div_neg_of_neg_of_pos hd hc))
    have hdet : detect_audio_segments dB d th m c = [] := by
      simp [detect_audio_segments, chunkStarts, hz, detectGo]
    rw [hdet]
    exact ⟨List.chain'_nil, List.chain'_nil, by simp⟩
  · have hinv0 : SegInv 0 (⟨[], none, 0⟩ : DetectState) := by
      refine ⟨List.chain'_nil, by simp, by simp, by simp⟩
    have hlb : ∀ s ∈ chunkStarts d c, (0:ℚ) ≤ s := by
      intro s hs
      simp only [chunkStarts, List.mem_map] at hs
      obtain ⟨i, _, rfl⟩ := hs
      positivity
    have hlt : ∀ s ∈ chunkStarts d c, s < d := by
      intro s hs
      simp only [chunkStarts, List.mem_map, List.mem_range] at hs
      obtain ⟨i, hi, rfl⟩ := hs
      have h1 : (i : ℚ) < d / c := Nat.lt_ceil.mp hi
      have h2 : (i : ℚ) * c < (d / c) * c := mul_lt_mul_of_pos_right h1 hc
      rwa [div_mul_cancel₀ d (ne_of_gt hc)] at h2
    have hpw : List.Pairwise (· ≤ ·) (chunkStarts d c) := by
      simp only [chunkStarts]
      refine List.Pairwise.map _ ?_ (List.pairwise_lt_range _)
      intro a b hab
      exact mul_le_mul_of_nonneg_right (by exact_mod_cast le_of_lt hab) (le_of_lt hc)
    obtain ⟨hi, hhi0, hmem, hinvf⟩ := @detectGo_inv dB d th m c
      (chunkStarts d c) ⟨[], none, 0⟩ 0 hinv0 hlb hpw
    have hid : hi ≤ d := by
      rcases hmem with rfl | hmem'
      · exact hd
      · exact le_of_lt (hlt hi hmem')
    have hinvd := SegInv_mono hid _ hinvf
    set final := detectGo dB d th m c (chunkStarts d c) ⟨[], none, 0⟩ with hfin
    obtain ⟨hchain, hwf, hend, hb0, hb1⟩ := hinvd
    cases hcs : final.current_start with
    | none =>
        have hdet : detect_audio_segments dB d th m c = final.segments := by
          simp only [detect_audio_segments]
          rw [← hfin, hcs]
        rw [hdet]
        simp only [hcs, Option.getD_none] at hend
        have hvd : Valid final.segments := fun s hs => (hwf s hs).2
        refine ⟨chain_ov_sorted _ hvd hchain, hchain, ?_⟩
        intro s hs
        exact ⟨(hwf s hs).1, (hwf s hs).2, hend s hs⟩
    | some cs =>
        have hdet : detect_audio_segments dB d th m c = final.segments ++ [(cs, d)] := by
          simp only [detect_audio_segments]
          rw [← hfin, hcs]
        simp only [hcs, Option.getD_some] at hend hb0 hb1
        rw [hdet]
        have hchain2 := chain_ov_append_single final.segments (cs, d) hchain hend
        have hv2 : Valid (final.segments ++ [(cs, d)]) := by
          intro s hs
          rcases List.mem_append.mp hs with hs' | hs'
          · exact (hwf s hs').2
          · rw [List.mem_singleton] at hs'
            rw [hs']
            exact hb1
        refine ⟨chain_ov_sorted _ hv2 hchain2, hchain2, ?_⟩
        intro s hs
        rcases List.mem_append.mp hs with hs' | hs'
        · exact ⟨(hwf s hs').1, (hwf s hs').2, le_trans (hend s hs') hb1⟩
        · rw [List.mem_singleton] at hs'
          rw [hs']
          exact ⟨hb0, hb1, le_refl _⟩

/-- Witness for C6 at a concrete all-loud run. -/
theorem claim_C6_witness :
    StartSorted (detect_audio_segments (fun _ _ => 0) 1 (-30) (3/10) (1/2)) ∧
    NoOverlap (detect_audio_segments (fun _ _ => 0) 1 (-30) (3/10) (1/2)) := by
  have h := claim_C6_detector_invariants (fun _ _ => 0) 1 (-30) (3/10) (1/2)
    (by norm_num) (by norm_num)
  exact ⟨h.1, h.2.1⟩

/-- Counterexample refuting C1: on this run the detector produces
`[(0, 0.3), (0.4, 0.5)]`, whose two segments are `0.1` apart; the actual
pipeline groups the raw segments, while the claimed data flow would
first merge them with `max_gap = 0.5` and group `[(0, 0.5)]`, so the
grouper input is not the merger's output. -/
theorem claim_C1_counterexample :
    run_grouped_segments dB_ce (1/2) ≠
      group_segments_by_gap
        (combine_segments
          (detect_audio_segments dB_ce (1/2) (-30) minimum_silence_duration (0.1)) (0.5))
        minimum_silence_new_clip := by
  have hstarts : chunkStarts (1/2) (0.1) = [0, 1/10, 1/5, 3/10, 2/5] := by
    norm_num [chunkStarts, List.range_succ]
  have hdet : detect_audio_segments dB_ce (1/2) (-30) minimum_silence_duration (0.1) =
      [(0, 3/10), (2/5, 1/2)] := by
    simp only [detect_audio_segments, hstarts, minimum_silence_duration]
    norm_num [detectGo, detectChunk, dB_ce, decide_eq_true_eq]
  simp only [run_grouped_segments, hdet]
  norm_num [combine_segments, combineAux, group_segments_by_gap, groupAux,
    minimum_silence_new_clip]

/-- Claim C1 (amended): the pipeline hands the detector's raw segments
directly to the grouper; `combine_segments` is defined but never
invoked, so no merging happens between detection and grouping. -/
theorem claim_C1_pipeline_grouper_input (dB : ℚ → ℚ → ℚ) (duration : ℚ) :
    run_grouped_segments dB duration =
      group_segments_by_gap
        (detect_audio_segments dB duration (-30) minimum_silence_duration (0.1))
        minimum_silence_new_clip := rfl

/-- Counterexample refuting C9: a negative chunk size is not rejected:
the run succeeds and returns an empty segment list, exactly as a fully
silent media would, instead of failing with a configuration error. -/
theorem claim_C9_counterexample :
    ((-1 : ℚ) < 0) ∧
    detect_audio_segmentsE (fun _ _ => 0) 1 (-30) (3/10) (-1) = Except.ok [] := by
  refine ⟨by norm_num, ?_⟩
  have hz : ⌈(1:ℚ) / (-1)⌉₊ = 0 := Nat.ceil_eq_zero.mpr (by norm_num)
  have hdet : detect_audio_segments (fun _ _ => 0) 1 (-30) (3/10) (-1) = [] := by
    simp [detect_audio_segments, chunkStarts, hz, detectGo]
  simp [detect_audio_segmentsE, hdet]

/-- Claim C9 (amended): the code performs no configuration validation.
A zero chunk size fails with numpy's unhandled `ZeroDivisionError`
raised by `np.arange` before any chunk is analysed, and a negative chunk
size is silently accepted: the chunk loop is empty and the detector
returns an empty segment list. -/
theorem claim_C9_no_validation (dB : ℚ → ℚ → ℚ) (d th m c : ℚ) :
    (c = 0 → detect_audio_segmentsE dB d th m c =
      Except.error "ZeroDivisionError: division by zero") ∧
    (c < 0 → 0 ≤ d → detect_audio_segmentsE dB d th m c = Except.ok []) := by
  constructor
  · intro h
    simp [detect_audio_segmentsE, h]
  · intro hc hd
    have hdc : d / c ≤ 0 := by
      rcases eq_or_lt_of_le hd with h0 | h0
      · rw [← h0]
        simp
      · exact le_of_lt (div_neg_of_pos_of_neg h0 hc)
    have hz : ⌈d / c⌉₊ = 0 := Nat.ceil_eq_zero.mpr hdc
    have hdet : detect_audio_segments dB d th m c = [] := by
      simp [detect_audio_segments, chunkStarts, hz, detectGo]
    simp [detect_audio_segmentsE, ne_of_lt hc, hdet]

/-- Witness for the amended C9: the zero and a negative chunk size at
concrete parameters. -/
theorem claim_C9_witness :
    detect_audio_segmentsE (fun _ _ => 0) 1 (-30) (3/10) 0 =
      Except.error "ZeroDivisionError: division by zero" ∧
    detect_audio_segmentsE (fun _ _ => 0) 1 (-30) (3/10) (-2) = Except.ok [] :=
  ⟨(claim_C9_no_validation (fun _ _ => 0) 1 (-30) (3/10) 0).1 rfl,
   (claim_C9_no_validation (fun _ _ => 0) 1 (-30) (3/10) (-2)).2
     (by norm_num) (by norm_num)⟩

section LoudnessLemmas

/-- The RMS of a channel is nonnegative. -/
lemma channel_rms_nonneg (ch : List ℝ) : 0 ≤ channel_rms ch :=
  Real.sqrt_nonneg _

/-- Scaling every sample by `k ≥ 0` scales the RMS by `k`. -/
lemma channel_rms_scale (k : ℝ) (hk : 0 ≤ k) (ch : List ℝ) :
    channel_rms (ch.map (fun x => k * x)) = k * channel_rms ch := by
  unfold channel_rms
  rw [List.map_map]
  have h1 : ch.map ((fun x => x ^ 2) ∘ (fun x => k * x)) =
      ch.map (fun x => k ^ 2 * x ^ 2) := by
    apply List.map_congr_left
    intro x _
    simp [Function.comp, mul_pow]
  rw [h1, List.sum_map_mul_left, List.length_map, mul_div_assoc,
    Real.sqrt_mul (sq_nonneg k), Real.sqrt_sq hk]

/-- A sum of squares with a nonzero member is positive. -/
lemma sum_sq_pos :
    ∀ (ch : List ℝ) (x : ℝ), x ∈ ch → x ≠ 0 → 0 < (ch.map (fun y => y ^ 2)).sum
  | [], x, hx, _ => absurd hx (List.not_mem_nil x)
  | a :: rest, x, hx, hx0 => by
      rw [List.map_cons, List.sum_cons]
      have hrest0 : 0 ≤ (rest.map (fun y => y ^ 2)).sum := by
        apply List.sum_nonneg
        intro y hy
        simp only [List.mem_map] at hy
        obtain ⟨z, _, rfl⟩ := hy
        exact sq_nonneg z
      rcases List.mem_cons.mp hx with rfl | hx'
      · have h1 : 0 < x ^ 2 := pow_two_pos_of_ne_zero hx0
        linarith
      · have h1 := sum_sq_pos rest x hx' hx0
        have h2 : 0 ≤ a ^ 2 := sq_nonneg a
        linarith

/-- A channel containing a nonzero sample has positive RMS. -/
lemma channel_rms_pos {ch : List ℝ} {x : ℝ} (hx : x ∈ ch) (hx0 : x ≠ 0) :
    0 < channel_rms ch := by
  unfold channel_rms
  apply Real.sqrt_pos.mpr
  apply div_pos (sum_sq_pos ch x hx hx0)
  exact_mod_cast List.length_pos.mpr (List.ne_nil_of_mem hx)

/-- Attenuating a channel never increases its dB value. -/
lemma channel_dB_scale_le (k : ℝ) (hk0 : 0 < k) (hk1 : k < 1) (ch : List ℝ) :
    channel_dB (ch.map (fun x => k * x)) ≤ channel_dB ch := by
  rcases eq_or_lt_of_le (channel_rms_nonneg ch) with h0 | hpos
  · unfold channel_dB
    rw [channel_rms_scale k (le_of_lt hk0), ← h0, mul_zero]
  · unfold channel_dB
    rw [channel_rms_scale k (le_of_lt hk0)]
    have hkr : 0 < k * channel_rms ch := mul_pos hk0 hpos
    have e1 : floor_rms (k * channel_rms ch) = k * channel_rms ch := by
      simp only [floor_rms]
      rw [if_neg (ne_of_gt hkr)]
    have e2 : floor_rms (channel_rms ch) = channel_rms ch := by
      simp only [floor_rms]
      rw [if_neg (ne_of_gt hpos)]
    rw [e1, e2]
    have hlt : k * channel_rms ch < channel_rms ch :=
      mul_lt_of_lt_one_left hpos hk1
    have hlog := Real.logb_lt_logb (by norm_num : (1:ℝ) < 10) hkr hlt
    linarith

/-- Attenuating a channel with a nonzero sample strictly decreases its
dB value. -/
lemma channel_dB_scale_lt (k : ℝ) (hk0 : 0 < k) (hk1 : k < 1) {ch : List ℝ}
    {x : ℝ} (hx : x ∈ ch) (hx0 : x ≠ 0) :
    channel_dB (ch.map (fun x => k * x)) < channel_dB ch := by
  have hpos := channel_rms_pos hx hx0
  unfold channel_dB
  rw [channel_rms_scale k (le_of_lt hk0)]
  have hkr : 0 < k * channel_rms ch := mul_pos hk0 hpos
  have e1 : floor_rms (k * channel_rms ch) = k * channel_rms ch := by
    simp only [floor_rms]
    rw [if_neg (ne_of_gt hkr)]
  have e2 : floor_rms (channel_rms ch) = channel_rms ch := by
    simp only [floor_rms]
    rw [if_neg (ne_of_gt hpos)]
  rw [e1, e2]
  have hlt : k * channel_rms ch < channel_rms ch :=
    mul_lt_of_lt_one_left hpos hk1
  have hlog := Real.logb_lt_logb (by norm_num : (1:ℝ) < 10) hkr hlt
  linarith

/-- A mapped sum strictly decreases when no term increases and some term
strictly decreases. -/
lemma list_sum_lt_sum {α : Type} (f h : α → ℝ) :
    ∀ (l : List α), (∀ x ∈ l, f x ≤ h x) → (∃ x ∈ l, f x < h x) →
      (l.map f).sum < (l.map h).sum
  | [], _, hex => by simp at hex
  | a :: rest, hle, hex => by
      rw [List.map_cons, List.map_cons, List.sum_cons, List.sum_cons]
      rcases hex with ⟨x, hx, hlt⟩
      rcases List.mem_cons.mp hx with rfl | hx'
      · have hrest : (rest.map f).sum ≤ (rest.map h).sum := by
          apply List.sum_le_sum
          intro i hi
          exact hle i (List.mem_cons_of_mem _ hi)
        linarith
      · have hhead : f a ≤ h a := hle a (List.mem_cons_self _ _)
        have hrest := list_sum_lt_sum f h rest
          (fun i hi => hle i (List.mem_cons_of_mem _ hi)) ⟨x, hx', hlt⟩
        linarith

end LoudnessLemmas

/-- Claim C8 (amended): attenuating a non-empty sample buffer that
contains at least one nonzero sample by a factor `0 < k < 1` strictly
decreases the dB value.  On an all-zero buffer both RMS values hit the
`1e-10` floor and the dB value is unchanged. -/
theorem claim_C8_loudness_monotonic (channels : List (List ℝ)) (k : ℝ)
    (hk0 : 0 < k) (hk1 : k < 1) (hne : channels ≠ [])
    (hx : ∃ ch ∈ channels, ∃ x ∈ ch, x ≠ 0) :
    audio_to_dB (scale_samples k channels) < audio_to_dB channels := by
  unfold audio_to_dB scale_samples
  rw [List.length_map, List.map_map]
  have hlen : (0:ℝ) < channels.length := by
    exact_mod_cast List.length_pos.mpr hne
  apply div_lt_div_of_pos_right ?_ hlen
  case _ =>
    apply list_sum_lt_sum
    · intro ch _
      exact channel_dB_scale_le k hk0 hk1 ch
    · obtain ⟨ch, hch, x, hxch, hx0⟩ := hx
      exact ⟨ch, hch, channel_dB_scale_lt k hk0 hk1 hxch hx0⟩

/-- Counterexample refuting C8 as stated: the non-empty all-zero buffer
`[[0]]` scaled by `1/2` is the same buffer, so its dB value does not
strictly decrease — both sides hit the `rms == 0` floor. -/
theorem claim_C8_counterexample :
    (0:ℝ) < 1/2 ∧ (1/2:ℝ) < 1 ∧ ([[(0:ℝ)]] : List (List ℝ)) ≠ [] ∧
    ¬ (audio_to_dB (scale_samples (1/2) [[(0:ℝ)]]) < audio_to_dB [[(0:ℝ)]]) := by
  refine ⟨by norm_num, by norm_num, by simp, ?_⟩
  have h : scale_samples (1/2 : ℝ) [[(0:ℝ)]] = [[(0:ℝ)]] := by
    simp [scale_samples]
  rw [h]
  exact lt_irrefl _

/-- Witness for the amended C8 at a one-channel one-sample buffer. -/
theorem claim_C8_witness :
    audio_to_dB (scale_samples (1/2) [[(1:ℝ)]]) < audio_to_dB [[(1:ℝ)]] :=
  claim_C8_loudness_monotonic [[(1:ℝ)]] (1/2) (by norm_num) (by norm_num)
    (by simp) ⟨[(1:ℝ)], by simp, 1, by simp, one_ne_zero⟩

/-- Claim C10: on an empty sample buffer the loudness is NaN — the mean
over zero samples is NaN and the `rms == 0` floor does not replace it —
the comparison `NaN < threshold` is false, so the chunk counts as
non-silent, and on a non-silent chunk the detector resets the silence
accumulator and opens a segment at the chunk start when none is open. -/
theorem claim_C10_empty_chunk_nan (channels : List (List ℝ)) (threshold : ℝ)
    (hempty : channels = [] ∨ [] ∈ channels) :
    audio_to_dBF channels = none ∧
    ¬ isSilentF (audio_to_dBF channels) threshold ∧
    (∀ (m c : ℚ) (st : DetectState) (start : ℚ),
      detectChunk m c false st start =
        ⟨st.segments, some (st.current_start.getD start), 0⟩) := by
  have hnone : audio_to_dBF channels = none := by
    rcases hempty with rfl | hmem
    · simp [audio_to_dBF, meanOF]
    · have hch : channel_dBF ([] : List ℝ) = none := by
        simp [channel_dBF, channel_rmsF, meanF, floor_rmsF]
      have hmem2 : none ∈ channels.map channel_dBF := by
        rw [← hch]
        exact List.mem_map_of_mem _ hmem
      simp [audio_to_dBF, meanOF, hmem2]
  refine ⟨hnone, ?_, fun m c st start => rfl⟩
  rw [hnone]
  simp [isSilentF]

/-- Witness for C10: the one-channel zero-sample buffer. -/
theorem claim_C10_witness :
    audio_to_dBF [([] : List ℝ)] = none ∧
    ¬ isSilentF (audio_to_dBF [([] : List ℝ)]) (-30) ∧
    detectChunk (3/10) (1/10) false ⟨[], none, 0⟩ 0 = ⟨[], some 0, 0⟩ := by
  obtain ⟨h1, h2, h3⟩ :=
    claim_C10_empty_chunk_nan [([] : List ℝ)] (-30) (Or.inr (by simp))
  refine ⟨h1, h2, ?_⟩
  rw [h3 (3/10) (1/10) ⟨[], none, 0⟩ 0]
  simp

end VideoSilence
